import Mathlib

/-!
Verification development for the SparksAI audit service.

The Go sources are shallowly embedded: strings become `List Char`, machine
integers become `Int`/`Nat`, the buffered channel becomes an explicit FIFO
list, database effects become explicit state passing over a list of rows,
and fallible operations are parameterized by explicit success flags.
`float64` latency values are modeled by `Int` placeholders: no claim in this
development computes with a latency value, only passes it through.
-/

namespace AuditSvc

/-- Go strings are modeled as lists of characters. -/
abbrev Str := List Char

/-- Embedding of the Go struct `auditlog.AuditLog` (internal/auditlog/auditlog.go).
Pointer-typed fields become `Option`; `float64` is modeled by `Int` (no claim
computes with it).  The `severity` field is the one referenced by the ingest
handler (`req.Logs[i].Severity`); it is not among the columns written by
`BatchInsertAuditLogs` (the table defaults it to `"NONE"`). -/
structure AuditLog where
  id : Int := 0
  userID : Option Str := none
  endpointPath : Str := []
  sessionID : Option Str := none
  action : Option Str := none
  actionDate : Option Str := none
  count : Option Int := none
  httpMethod : Str := []
  statusCode : Int := 0
  responseTimeSeconds : Int := 0
  severity : Str := []
  createdAt : Str := []
  ipAddress : Option Str := none
  userAgent : Option Str := none
  chatHistoryID : Option Int := none
  insightsID : Option Int := none
  tokensUsed : Option Int := none
  queryRaw : Option Str := none
  bodyRaw : Option Str := none
  responseBody : Option Str := none
deriving Repr, DecidableEq

/-! ## Event queue (internal/buffer/buffer.go, `Buffer.AddLogs`)

The buffered channel `logChan` of capacity `maxSize` is modeled as a FIFO
list (head = oldest).  The `select`/`default` in `AddLogs` accepts an event
exactly when the channel has free capacity and otherwise drops it (the
`default` branch logs a warning); this is embedded as a recursion over the
submitted list that also counts the dropped events (the emitted warnings). -/

structure Buffer where
  logChan : List AuditLog
  maxSize : Nat
deriving Repr, DecidableEq

/-- The loop body of `Buffer.AddLogs`: returns (final queue, accepted count,
dropped count). -/
def addLogsAux (maxSize : Nat) : List AuditLog → List AuditLog → List AuditLog × Nat × Nat
  | queue, [] => (queue, 0, 0)
  | queue, l :: rest =>
    if queue.length < maxSize then
      let r := addLogsAux maxSize (queue ++ [l]) rest
      (r.1, r.2.1 + 1, r.2.2)
    else
      let r := addLogsAux maxSize queue rest
      (r.1, r.2.1, r.2.2 + 1)

/-- Embedding of `Buffer.AddLogs`: processes the submitted events in order and
returns the new buffer together with `addedCount` (the Go return value). -/
def Buffer.AddLogs (b : Buffer) (logs : List AuditLog) : Buffer × Nat :=
  let r := addLogsAux b.maxSize b.logChan logs
  ({ b with logChan := r.1 }, r.2.1)

/-- Number of events dropped (warning log lines emitted) by one `AddLogs` call. -/
def Buffer.droppedCount (b : Buffer) (logs : List AuditLog) : Nat :=
  (addLogsAux b.maxSize b.logChan logs).2.2

theorem addLogsAux_spec (maxSize : Nat) :
    ∀ (logs queue : List AuditLog), queue.length ≤ maxSize →
      addLogsAux maxSize queue logs =
        (queue ++ logs.take (maxSize - queue.length),
         min logs.length (maxSize - queue.length),
         logs.length - min logs.length (maxSize - queue.length)) := by
  intro logs
  induction logs with
  | nil => intro queue h; simp [addLogsAux]
  | cons l rest ih =>
    intro queue h
    by_cases hq : queue.length < maxSize
    · have hfree : maxSize - queue.length = (maxSize - (queue.length + 1)) + 1 := by omega
      have hlen : (queue ++ [l]).length ≤ maxSize := by
        simp only [List.length_append, List.length_cons, List.length_nil]; omega
      simp only [addLogsAux, if_pos hq, ih (queue ++ [l]) hlen, Prod.mk.injEq]
      refine ⟨?_, ?_, ?_⟩
      · rw [hfree, List.take_succ_cons, List.append_assoc]
        simp
      · simp only [List.length_append, List.length_cons, List.length_nil, hfree]
        omega
      · simp only [List.length_append, List.length_cons, List.length_nil, hfree]
        omega
    · have hq0 : queue.length = maxSize := by omega
      have hfree : maxSize - queue.length = 0 := by omega
      simp only [addLogsAux, if_neg hq, ih queue h, hfree]
      simp

/-- C1 core: an `AddLogs` call accepts exactly the longest prefix of the
submitted events that fits in the remaining capacity (FIFO append), returns
that count, and drops the rest. -/
theorem Buffer.AddLogs_spec (b : Buffer) (logs : List AuditLog)
    (h : b.logChan.length ≤ b.maxSize) :
    (b.AddLogs logs).2 = min logs.length (b.maxSize - b.logChan.length) ∧
    (b.AddLogs logs).1.logChan =
      b.logChan ++ logs.take (b.maxSize - b.logChan.length) ∧
    (b.AddLogs logs).1.maxSize = b.maxSize ∧
    b.droppedCount logs = logs.length - (b.AddLogs logs).2 := by
  have hs := addLogsAux_spec b.maxSize logs b.logChan h
  simp [Buffer.AddLogs, Buffer.droppedCount, hs]

/-- C1: every event submitted to `Buffer.AddLogs` is either accepted
immediately (queue has free capacity; FIFO append) or dropped immediately
(queue full); the returned count is the number of accepted events (the queue
grows by exactly that many, accepted + dropped = submitted), and when more
events are submitted than the remaining capacity the returned count is
strictly less than the submitted count, the deficit being exactly the number
of dropped events. -/
theorem C1_addLogs_accepts_prefix_and_counts (b : Buffer) (logs : List AuditLog)
    (h : b.logChan.length ≤ b.maxSize) :
    (b.AddLogs logs).2 = min logs.length (b.maxSize - b.logChan.length) ∧
    (b.AddLogs logs).1.logChan =
      b.logChan ++ logs.take (b.maxSize - b.logChan.length) ∧
    (b.AddLogs logs).1.logChan.length = b.logChan.length + (b.AddLogs logs).2 ∧
    (b.AddLogs logs).2 + b.droppedCount logs = logs.length ∧
    (b.maxSize - b.logChan.length < logs.length →
      (b.AddLogs logs).2 < logs.length ∧
      logs.length - (b.AddLogs logs).2 = b.droppedCount logs) := by
  obtain ⟨h1, h2, _h3, h4⟩ := Buffer.AddLogs_spec b logs h
  refine ⟨h1, h2, ?_, ?_, ?_⟩
  · rw [h2, h1, List.length_append, List.length_take]
    omega
  · rw [h1, h4, h1]; omega
  · intro hover
    rw [h1, h4, h1]
    constructor <;> omega

/-- Witness for C1 at a concrete input: capacity 3, occupancy 1, 4 events
submitted; 2 accepted, 2 dropped. -/
theorem C1_addLogs_witness :
    (({ logChan := [{}], maxSize := 3 } : Buffer).AddLogs [{}, {}, {}, {}]).2 = 2 ∧
    (({ logChan := [{}], maxSize := 3 } : Buffer).AddLogs [{}, {}, {}, {}]).2 <
      ([{}, {}, {}, {}] : List AuditLog).length ∧
    ({ logChan := [{}], maxSize := 3 } : Buffer).droppedCount [{}, {}, {}, {}] = 2 := by
  have h := C1_addLogs_accepts_prefix_and_counts
    { logChan := [{}], maxSize := 3 } [{}, {}, {}, {}] (by decide)
  refine ⟨?_, (h.2.2.2.2 (by decide)).1, ?_⟩
  · rw [h.1]; decide
  · have h5 := (h.2.2.2.2 (by decide)).2
    rw [← h5, h.1]; decide

/-! ## Batching worker (internal/buffer/buffer.go, `Buffer.startWorker` / `Buffer.flush`)

The worker loop is embedded as a step relation over the accumulated batch and
the persisted store.  One step consumes either a drained queue event
(`WorkerEvent.recv`, the `case logEntry := <-b.logChan` arm) or a timer fire
(`WorkerEvent.tick`, the `case <-ticker.C` arm).  The outcome of the
`BatchInsertAuditLogs` call inside `flush` is injected as the flag
`insertOk`: on success the flushed events are appended to the store, on
failure the store is unchanged and the events are only reported to the log
sink.  The second component of a step is `some flushedBatch` exactly when the
step attempted a flush. -/

inductive WorkerEvent where
  | recv (l : AuditLog)
  | tick
deriving Repr, DecidableEq

structure WorkerState where
  batch : List AuditLog
  store : List AuditLog
deriving Repr, DecidableEq

/-- Embedding of `Buffer.flush` acting on the store, with the batch-insert
outcome injected as `insertOk`. -/
def flushStore (insertOk : Bool) (store logs : List AuditLog) : List AuditLog :=
  if logs.isEmpty then store
  else if insertOk then store ++ logs else store

/-- One iteration of the `for`/`select` loop in `Buffer.startWorker`. -/
def workerStep (batchSize : Nat) (insertOk : Bool) (s : WorkerState) :
    WorkerEvent → WorkerState × Option (List AuditLog)
  | .recv l =>
    let b := s.batch ++ [l]
    if batchSize ≤ b.length then
      (⟨[], flushStore insertOk s.store b⟩, some b)
    else
      (⟨b, s.store⟩, none)
  | .tick =>
    if 0 < s.batch.length then
      (⟨[], flushStore insertOk s.store s.batch⟩, some s.batch)
    else
      (s, none)

/-- C2: in the worker step relation, (a) a received event that makes the batch
reach the size threshold triggers a flush in that same step (a `recv` step,
no timer involved); (b) a timer fire with a non-empty batch triggers a flush
of it; (c) after every flush attempt the batch is cleared, and on a failed
insert the store is unchanged while the flushed events are not re-enqueued
into the batch (they are lost); on a successful insert they are appended to
the store. -/
theorem C2_workerStep_flush_triggers (batchSize : Nat) (insertOk : Bool)
    (s : WorkerState) (l : AuditLog) :
    (batchSize ≤ s.batch.length + 1 →
      (workerStep batchSize insertOk s (.recv l)).2 = some (s.batch ++ [l]) ∧
      (workerStep batchSize insertOk s (.recv l)).1.batch = []) ∧
    (s.batch.length + 1 < batchSize →
      (workerStep batchSize insertOk s (.recv l)).2 = none ∧
      (workerStep batchSize insertOk s (.recv l)).1.batch = s.batch ++ [l] ∧
      (workerStep batchSize insertOk s (.recv l)).1.store = s.store) ∧
    (0 < s.batch.length →
      (workerStep batchSize insertOk s .tick).2 = some s.batch ∧
      (workerStep batchSize insertOk s .tick).1.batch = []) ∧
    (∀ ev fl, (workerStep batchSize insertOk s ev).2 = some fl →
      (workerStep batchSize insertOk s ev).1.batch = [] ∧
      (insertOk = false →
        (workerStep batchSize insertOk s ev).1.store = s.store) ∧
      (insertOk = true →
        (workerStep batchSize insertOk s ev).1.store = s.store ++ fl)) := by
  refine ⟨?_, ?_, ?_, ?_⟩
  · intro hsz
    simp [workerStep, hsz]
  · intro hsz
    have hc : ¬ batchSize ≤ s.batch.length + 1 := by omega
    simp [workerStep, hc]
  · intro hne
    simp [workerStep, hne]
  · intro ev fl hfl
    cases ev with
    | recv l' =>
      by_cases hc : batchSize ≤ s.batch.length + 1
      · have hstep : workerStep batchSize insertOk s (.recv l') =
            (⟨[], flushStore insertOk s.store (s.batch ++ [l'])⟩,
             some (s.batch ++ [l'])) := by
          simp [workerStep, hc]
        rw [hstep] at hfl ⊢
        simp only [Option.some.injEq] at hfl
        subst hfl
        refine ⟨rfl, fun hok => ?_, fun hok => ?_⟩ <;> subst hok <;>
          simp [flushStore]
      · simp [workerStep, hc] at hfl
    | tick =>
      by_cases hne : 0 < s.batch.length
      · have hstep : workerStep batchSize insertOk s .tick =
            (⟨[], flushStore insertOk s.store s.batch⟩, some s.batch) := by
          simp [workerStep, hne]
        rw [hstep] at hfl ⊢
        simp only [Option.some.injEq] at hfl
        subst hfl
        have hb : s.batch ≠ [] := by
          intro hemp
          rw [hemp] at hne
          simp at hne
        refine ⟨rfl, fun hok => ?_, fun hok => ?_⟩ <;> subst hok <;>
          simp [flushStore, hb]
      · simp [workerStep, hne] at hfl

/-- Witness for C2 at concrete inputs: threshold 2, batch already holding one
event; a received event flushes both (timer never fired), and with a failing
insert the store stays empty while the batch is cleared. -/
theorem C2_workerStep_witness :
    (workerStep 2 false ⟨[{}], []⟩ (.recv {})).2 = some [{}, {}] ∧
    (workerStep 2 false ⟨[{}], []⟩ (.recv {})).1.batch = [] ∧
    (workerStep 2 false ⟨[{}], []⟩ (.recv {})).1.store = [] ∧
    (workerStep 2 true ⟨[{}], []⟩ .tick).2 = some [{}] ∧
    (workerStep 2 true ⟨[{}], []⟩ .tick).1.batch = [] := by
  have h1 := C2_workerStep_flush_triggers 2 false ⟨[{}], []⟩ {}
  have h2 := C2_workerStep_flush_triggers 2 true ⟨[{}], []⟩ {}
  obtain ⟨ha, -, -, hd⟩ := h1
  obtain ⟨-, -, hc, -⟩ := h2
  have hflush := ha (by decide)
  refine ⟨hflush.1, hflush.2, ?_, (hc (by decide)).1, (hc (by decide)).2⟩
  exact ((hd (.recv {}) [{}, {}] hflush.1).2.1 rfl).trans rfl

/-! ## JSON values (model of Go `encoding/json` as used by the store)

`json.Unmarshal` into `interface{}` and `json.Marshal` are modeled by an
executable parser/serializer over an inductive JSON value type.  Model
restrictions (each narrows which strings count as syntactically valid JSON,
none affects the claims settled below): numbers are integers (no fraction or
exponent, leading zeros accepted), string escapes cover `\"` and `\\` only,
and Go's HTML/control-character escaping on output is not modeled. -/

inductive Json where
  | null
  | bool (b : Bool)
  | num (n : Int)
  | str (s : Str)
  | arr (elems : List Json)
  | obj (members : List (Str × Json))
deriving Repr

def digitChar : Nat → Char
  | 0 => '0' | 1 => '1' | 2 => '2' | 3 => '3' | 4 => '4'
  | 5 => '5' | 6 => '6' | 7 => '7' | 8 => '8' | _ => '9'

/-- Decimal digits of a positive number, least significant first. -/
def natToRevDigits : Nat → List Char
  | 0 => []
  | n + 1 => digitChar ((n + 1) % 10) :: natToRevDigits ((n + 1) / 10)
decreasing_by exact Nat.div_lt_self (Nat.succ_pos n) (by omega)

/-- Decimal rendering of a natural number. -/
def natToChars (n : Nat) : Str :=
  if n = 0 then ['0'] else (natToRevDigits n).reverse

/-- Decimal rendering of an integer (Go `json.Marshal` of an integral value). -/
def intToChars (i : Int) : Str :=
  if i < 0 then '-' :: natToChars i.natAbs else natToChars i.natAbs

def isDigitChar (c : Char) : Bool :=
  48 ≤ c.toNat && c.toNat ≤ 57

/-- Value of a big-endian digit string. -/
def digitsToNat (ds : Str) : Nat :=
  ds.foldl (fun a c => a * 10 + (c.toNat - 48)) 0

def escapeChar (c : Char) : Str :=
  if c = '"' ∨ c = '\\' then ['\\', c] else [c]

def escString : Str → Str
  | [] => []
  | c :: t => escapeChar c ++ escString t

/-- JSON string literal for `s` (Go `json.Marshal` of a string value). -/
def quoteStr (s : Str) : Str :=
  '"' :: (escString s ++ ['"'])

mutual

/-- Model of `json.Marshal` on a decoded JSON value. -/
def Json.serialize : Json → Str
  | .num i => intToChars i
  | .str s => quoteStr s
  | .bool b => if b then "true".toList else "false".toList
  | .null => "null".toList
  | .arr es => '[' :: (serializeElems es ++ [']'])
  | .obj ms => '\x7b' :: (serializeMembers ms ++ ['\x7d'])
termination_by structural j => j

def serializeElems : List Json → Str
  | [] => []
  | [e] => Json.serialize e
  | e :: e2 :: t => Json.serialize e ++ ',' :: serializeElems (e2 :: t)
termination_by structural es => es

def serializeMembers : List (Str × Json) → Str
  | [] => []
  | [(k, v)] => quoteStr k ++ ':' :: Json.serialize v
  | (k, v) :: m :: t => quoteStr k ++ ':' :: Json.serialize v ++ ',' :: serializeMembers (m :: t)
termination_by structural ms => ms

end

def isWsChar (c : Char) : Bool :=
  c = ' ' || c = '\t' || c = '\n' || c = '\r'

def skipWs (cs : Str) : Str :=
  cs.dropWhile isWsChar

/-- Body of a JSON string literal, after the opening quote. -/
def parseStrBody : Str → Option (Str × Str)
  | [] => none
  | c :: r =>
    if c = '"' then some ([], r)
    else if c = '\\' then
      match r with
      | [] => none
      | e :: r2 =>
        if e = '"' ∨ e = '\\' then
          (parseStrBody r2).map (fun p => (e :: p.1, p.2))
        else none
    else (parseStrBody r).map (fun p => (c :: p.1, p.2))

/-- Unsigned decimal number at the head of the input. -/
def parseNumFrom (cs : Str) : Option (Json × Str) :=
  let ds := cs.takeWhile isDigitChar
  if ds.isEmpty then none
  else some (.num (digitsToNat ds : Int), cs.dropWhile isDigitChar)

mutual

/-- One JSON value at the head of the input (fuel-bounded recursion). -/
def parseVal : Nat → Str → Option (Json × Str)
  | 0, _ => none
  | fuel + 1, cs =>
    match skipWs cs with
    | [] => none
    | c :: r =>
      if isDigitChar c then parseNumFrom (c :: r)
      else if c = '-' then
        match parseNumFrom r with
        | some (Json.num n, r2) => some (.num (-n), r2)
        | _ => none
      else if c = '"' then
        match parseStrBody r with
        | some (s, r2) => some (.str s, r2)
        | none => none
      else if c = '[' then
        let r1 := skipWs r
        if r1.head? = some ']' then some (.arr [], r1.tail)
        else
          match parseElems fuel r1 with
          | some (es, r3) => some (.arr es, r3)
          | none => none
      else if c = '\x7b' then
        let r1 := skipWs r
        if r1.head? = some '\x7d' then some (.obj [], r1.tail)
        else
          match parseMembers fuel r1 with
          | some (ms, r3) => some (.obj ms, r3)
          | none => none
      else if c = 'n' then
        match r with
        | 'u' :: 'l' :: 'l' :: r2 => some (.null, r2)
        | _ => none
      else if c = 't' then
        match r with
        | 'r' :: 'u' :: 'e' :: r2 => some (.bool true, r2)
        | _ => none
      else if c = 'f' then
        match r with
        | 'a' :: 'l' :: 's' :: 'e' :: r2 => some (.bool false, r2)
        | _ => none
      else none
termination_by structural fuel _ => fuel

/-- One or more comma-separated array elements followed by a closing bracket. -/
def parseElems : Nat → Str → Option (List Json × Str)
  | 0, _ => none
  | fuel + 1, cs =>
    match parseVal fuel cs with
    | none => none
    | some (j, r) =>
      let r1 := skipWs r
      if r1.head? = some ',' then
        match parseElems fuel r1.tail with
        | some (js, r3) => some (j :: js, r3)
        | none => none
      else if r1.head? = some ']' then some ([j], r1.tail)
      else none
termination_by structural fuel _ => fuel

/-- One or more comma-separated object members followed by a closing brace. -/
def parseMembers : Nat → Str → Option (List (Str × Json) × Str)
  | 0, _ => none
  | fuel + 1, cs =>
    match skipWs cs with
    | '"' :: r =>
      match parseStrBody r with
      | none => none
      | some (k, r1) =>
        let r2 := skipWs r1
        if r2.head? = some ':' then
          match parseVal fuel r2.tail with
          | none => none
          | some (v, r3) =>
            let r4 := skipWs r3
            if r4.head? = some ',' then
              match parseMembers fuel r4.tail with
              | none => none
              | some (ms, r5) => some ((k, v) :: ms, r5)
            else if r4.head? = some '\x7d' then some ([(k, v)], r4.tail)
            else none
        else none
    | _ => none
termination_by structural fuel _ => fuel

end

theorem parseVal_succ (f : Nat) (cs : Str) :
    parseVal (f + 1) cs =
      (match skipWs cs with
       | [] => none
       | c :: r =>
         if isDigitChar c then parseNumFrom (c :: r)
         else if c = '-' then
           match parseNumFrom r with
           | some (Json.num n, r2) => some (.num (-n), r2)
           | _ => none
         else if c = '"' then
           match parseStrBody r with
           | some (s, r2) => some (.str s, r2)
           | none => none
         else if c = '[' then
           let r1 := skipWs r
           if r1.head? = some ']' then some (.arr [], r1.tail)
           else
             match parseElems f r1 with
             | some (es, r3) => some (.arr es, r3)
             | none => none
         else if c = '\x7b' then
           let r1 := skipWs r
           if r1.head? = some '\x7d' then some (.obj [], r1.tail)
           else
             match parseMembers f r1 with
             | some (ms, r3) => some (.obj ms, r3)
             | none => none
         else if c = 'n' then
           match r with
           | 'u' :: 'l' :: 'l' :: r2 => some (.null, r2)
           | _ => none
         else if c = 't' then
           match r with
           | 'r' :: 'u' :: 'e' :: r2 => some (.bool true, r2)
           | _ => none
         else if c = 'f' then
           match r with
           | 'a' :: 'l' :: 's' :: 'e' :: r2 => some (.bool false, r2)
           | _ => none
         else none) := by
  rw [parseVal.eq_def]

theorem parseElems_succ (f : Nat) (cs : Str) :
    parseElems (f + 1) cs =
      (match parseVal f cs with
       | none => none
       | some (j, r) =>
         let r1 := skipWs r
         if r1.head? = some ',' then
           match parseElems f r1.tail with
           | some (js, r3) => some (j :: js, r3)
           | none => none
         else if r1.head? = some ']' then some ([j], r1.tail)
         else none) := by
  rw [parseElems.eq_def]

theorem parseMembers_succ (f : Nat) (cs : Str) :
    parseMembers (f + 1) cs =
      (match skipWs cs with
       | '"' :: r =>
         match parseStrBody r with
         | none => none
         | some (k, r1) =>
           let r2 := skipWs r1
           if r2.head? = some ':' then
             match parseVal f r2.tail with
             | none => none
             | some (v, r3) =>
               let r4 := skipWs r3
               if r4.head? = some ',' then
                 match parseMembers f r4.tail with
                 | none => none
                 | some (ms, r5) => some ((k, v) :: ms, r5)
               else if r4.head? = some '\x7d' then some ([(k, v)], r4.tail)
               else none
           else none
       | _ => none) := by
  rw [parseMembers.eq_def]

/-- Model of `json.Unmarshal(data, &v)` for `v : interface\x7b\x7d`: parse one
value and require only trailing whitespace after it. -/
def goUnmarshal (s : Str) : Option Json :=
  match parseVal (2 * s.length + 2) s with
  | some (j, r) => if (skipWs r).isEmpty then some j else none
  | none => none

/-! ### Round trip: parsing a serialized value returns the value -/

/-- Value of a little-endian digit string. -/
def ldVal : Str → Nat
  | [] => 0
  | c :: t => (c.toNat - 48) + 10 * ldVal t

theorem digitChar_toNat (d : Nat) (h : d < 10) : (digitChar d).toNat = 48 + d := by
  interval_cases d <;> rfl

theorem isDigitChar_digitChar (d : Nat) (h : d < 10) : isDigitChar (digitChar d) = true := by
  interval_cases d <;> rfl

theorem natToRevDigits_digits (n : Nat) : ∀ c ∈ natToRevDigits n, isDigitChar c = true := by
  induction n using Nat.strong_induction_on with
  | _ n ih =>
    match n with
    | 0 => simp [natToRevDigits]
    | m + 1 =>
      rw [natToRevDigits]
      intro c hc
      rcases List.mem_cons.mp hc with h1 | h2
      · subst h1; exact isDigitChar_digitChar _ (Nat.mod_lt _ (by omega))
      · exact ih ((m + 1) / 10) (Nat.div_lt_self (by omega) (by omega)) c h2

theorem natToRevDigits_ne_nil (n : Nat) (h : n ≠ 0) : natToRevDigits n ≠ [] := by
  match n with
  | m + 1 => rw [natToRevDigits]; exact List.cons_ne_nil _ _

theorem ldVal_natToRevDigits (n : Nat) : ldVal (natToRevDigits n) = n := by
  induction n using Nat.strong_induction_on with
  | _ n ih =>
    match n with
    | 0 => simp [natToRevDigits, ldVal]
    | m + 1 =>
      rw [natToRevDigits]
      simp only [ldVal]
      rw [digitChar_toNat _ (Nat.mod_lt _ (by omega)),
        ih ((m + 1) / 10) (Nat.div_lt_self (by omega) (by omega))]
      omega

theorem foldl_digits_reverse (l : Str) (a : Nat) :
    List.foldl (fun a c => a * 10 + (c.toNat - 48)) a l.reverse =
      a * 10 ^ l.length + ldVal l := by
  induction l generalizing a with
  | nil => simp [ldVal]
  | cons c t ih =>
    simp only [List.reverse_cons, List.foldl_append, ih, List.foldl, ldVal, List.length_cons]
    rw [pow_succ]
    ring

theorem natToChars_ne_nil (n : Nat) : natToChars n ≠ [] := by
  by_cases h : n = 0
  · simp [natToChars, h]
  · simp only [natToChars, if_neg h]
    intro hrev
    exact natToRevDigits_ne_nil n h (List.reverse_eq_nil_iff.mp hrev)

theorem natToChars_digits (n : Nat) : ∀ c ∈ natToChars n, isDigitChar c = true := by
  by_cases h : n = 0
  · simp [natToChars, h]; rfl
  · simp only [natToChars, if_neg h]
    intro c hc
    exact natToRevDigits_digits n c (List.mem_reverse.mp hc)

theorem digitsToNat_natToChars (n : Nat) : digitsToNat (natToChars n) = n := by
  by_cases h : n = 0
  · subst h; rfl
  · simp only [natToChars, if_neg h, digitsToNat]
    rw [foldl_digits_reverse, ldVal_natToRevDigits]
    omega

theorem takeWhile_append_of (p : Char → Bool) :
    ∀ (l r : Str), (∀ c ∈ l, p c = true) → (∀ c, r.head? = some c → p c = false) →
      (l ++ r).takeWhile p = l ∧ (l ++ r).dropWhile p = r := by
  intro l
  induction l with
  | nil =>
    intro r _ hr
    cases r with
    | nil => exact ⟨rfl, rfl⟩
    | cons c t =>
      constructor
      · simp [List.takeWhile_cons, hr c rfl]
      · simp [List.dropWhile_cons, hr c rfl]
  | cons c t ih =>
    intro r hl hr
    have hc : p c = true := hl c (List.mem_cons_self c t)
    have ht := ih r (fun x hx => hl x (List.mem_cons_of_mem _ hx)) hr
    constructor
    · simp [List.takeWhile_cons, hc, ht.1]
    · simp [List.dropWhile_cons, hc, ht.2]

/-- The characters that can begin a serialized JSON value. -/
def goodStart (c : Char) : Bool :=
  isDigitChar c || c = '-' || c = '"' || c = '[' || c = '\x7b' ||
    c = 'n' || c = 't' || c = 'f'

theorem goodStart_ne (c x : Char) (h : goodStart c = true) (hx : goodStart x = false) :
    c ≠ x := by
  intro he
  subst he
  rw [hx] at h
  exact Bool.noConfusion h

theorem goodStart_not_ws (c : Char) (h : goodStart c = true) : isWsChar c = false := by
  cases hw : isWsChar c
  · rfl
  · exfalso
    have hcases : c = ' ' ∨ c = '\t' ∨ c = '\n' ∨ c = '\r' := by
      simpa [isWsChar, Bool.or_eq_true, decide_eq_true_eq, or_assoc] using hw
    rcases hcases with h1 | h1 | h1 | h1 <;> (subst h1; revert h; decide)

theorem goodStart_of_digit (c : Char) (h : isDigitChar c = true) : goodStart c = true := by
  simp [goodStart, h]

theorem digit_not_ws (c : Char) (h : isDigitChar c = true) : isWsChar c = false :=
  goodStart_not_ws c (goodStart_of_digit c h)

theorem skipWs_cons_of (c : Char) (l : Str) (h : isWsChar c = false) :
    skipWs (c :: l) = c :: l := by
  simp [skipWs, List.dropWhile_cons, h]

theorem serialize_head (j : Json) :
    ∃ c t, Json.serialize j = c :: t ∧ goodStart c = true := by
  cases j with
  | null => exact ⟨'n', ['u', 'l', 'l'], by simp [Json.serialize], by decide⟩
  | bool b =>
    cases b
    · exact ⟨'f', ['a', 'l', 's', 'e'], by simp [Json.serialize], by decide⟩
    · exact ⟨'t', ['r', 'u', 'e'], by simp [Json.serialize], by decide⟩
  | num i =>
    by_cases hi : i < 0
    · exact ⟨'-', natToChars i.natAbs, by simp [Json.serialize, intToChars, hi], by decide⟩
    · obtain ⟨c, t, hct⟩ : ∃ c t, natToChars i.natAbs = c :: t := by
        cases hnc : natToChars i.natAbs with
        | nil => exact absurd hnc (natToChars_ne_nil _)
        | cons c t => exact ⟨c, t, rfl⟩
      refine ⟨c, t, ?_, ?_⟩
      · simp [Json.serialize, intToChars, hi, hct]
      · exact goodStart_of_digit c
          (natToChars_digits i.natAbs c (hct ▸ List.mem_cons_self c t))
  | str s =>
    exact ⟨'"', escString s ++ ['"'], by simp [Json.serialize, quoteStr], by decide⟩
  | arr es =>
    exact ⟨'[', serializeElems es ++ [']'], by simp [Json.serialize], by decide⟩
  | obj ms =>
    exact ⟨'\x7b', serializeMembers ms ++ ['\x7d'], by simp [Json.serialize], by decide⟩

theorem serialize_length_pos (j : Json) : 1 ≤ (Json.serialize j).length := by
  obtain ⟨c, t, h, -⟩ := serialize_head j
  rw [h]
  simp

theorem parseStrBody_escString : ∀ (s rest : Str),
    parseStrBody (escString s ++ '"' :: rest) = some (s, rest) := by
  intro s
  induction s with
  | nil =>
    intro rest
    rw [escString, List.nil_append, parseStrBody.eq_def]
    simp
  | cons c t ih =>
    intro rest
    by_cases hq : c = '"'
    · subst hq
      rw [escString, escapeChar]
      rw [if_pos (Or.inl rfl), List.cons_append, List.cons_append, parseStrBody.eq_def]
      simp [ih]
    · by_cases hb : c = '\\'
      · subst hb
        rw [escString, escapeChar]
        rw [if_pos (Or.inr rfl), List.cons_append, List.cons_append, parseStrBody.eq_def]
        simp [ih]
      · rw [escString, escapeChar, if_neg (by simp [hq, hb]), List.cons_append,
          List.nil_append, parseStrBody.eq_def]
        simp [hq, hb, ih]

theorem parseNumFrom_natToChars (m : Nat) (rest : Str)
    (hb : ∀ c, rest.head? = some c → isDigitChar c = false) :
    parseNumFrom (natToChars m ++ rest) = some (.num (m : Int), rest) := by
  obtain ⟨htake, hdrop⟩ := takeWhile_append_of isDigitChar (natToChars m) rest
    (natToChars_digits m) hb
  have hemp : (natToChars m).isEmpty = false := by
    cases hnc : natToChars m with
    | nil => exact absurd hnc (natToChars_ne_nil _)
    | cons c t => rfl
  simp only [parseNumFrom, htake, hdrop, hemp, Bool.false_eq_true, if_false,
    Option.some.injEq, Prod.mk.injEq]
  rw [digitsToNat_natToChars]
  trivial

mutual

/-- Fuel sufficient for `parseVal` to consume a serialized value. -/
def jfuel : Json → Nat
  | .arr es => 1 + jfuelElems es
  | .obj ms => 1 + jfuelMembers ms
  | _ => 1

def jfuelElems : List Json → Nat
  | [] => 0
  | e :: t => 1 + max (jfuel e) (jfuelElems t)

def jfuelMembers : List (Str × Json) → Nat
  | [] => 0
  | (_, v) :: t => 1 + max (jfuel v) (jfuelMembers t)

end

theorem jfuel_pos (j : Json) : 0 < jfuel j := by
  cases j <;> simp [jfuel]

theorem serializeElems_head (e : Json) (t : List Json) :
    ∃ c u, serializeElems (e :: t) = c :: u ∧ goodStart c = true := by
  obtain ⟨c, u, hcu, hg⟩ := serialize_head e
  cases t with
  | nil => exact ⟨c, u, by simp [serializeElems, hcu], hg⟩
  | cons e2 t2 =>
    exact ⟨c, u ++ ',' :: serializeElems (e2 :: t2), by simp [serializeElems, hcu], hg⟩

theorem serializeMembers_head (m : Str × Json) (t : List (Str × Json)) :
    ∃ u, serializeMembers (m :: t) = '"' :: u := by
  obtain ⟨k, v⟩ := m
  cases t with
  | nil =>
    exact ⟨escString k ++ '"' :: ':' :: Json.serialize v,
      by simp [serializeMembers, quoteStr]⟩
  | cons m2 t2 =>
    exact ⟨escString k ++ '"' :: ':' :: (Json.serialize v ++
        ',' :: serializeMembers (m2 :: t2)),
      by simp [serializeMembers, quoteStr]⟩

theorem head_bound_of_nondigit (c : Char) (l : Str) (h : isDigitChar c = false) :
    ∀ x, (c :: l).head? = some x → isDigitChar x = false := by
  intro x hx
  rw [List.head?_cons, Option.some.injEq] at hx
  subst hx
  exact h

mutual

theorem parseVal_serialize (j : Json) (fuel : Nat) (rest : Str)
    (hf : jfuel j ≤ fuel) (hb : ∀ c, rest.head? = some c → isDigitChar c = false) :
    parseVal fuel (Json.serialize j ++ rest) = some (j, rest) := by
  obtain ⟨f, rfl⟩ : ∃ f, fuel = f + 1 := ⟨fuel - 1, by have := jfuel_pos j; omega⟩
  cases j with
  | null =>
    have harg : Json.serialize Json.null ++ rest = 'n' :: 'u' :: 'l' :: 'l' :: rest := by
      simp [Json.serialize]
    rw [harg, parseVal_succ, skipWs_cons_of _ _ (by decide)]
    simp +decide
  | bool b =>
    cases b with
    | false =>
      have harg : Json.serialize (Json.bool false) ++ rest =
          'f' :: 'a' :: 'l' :: 's' :: 'e' :: rest := by
        simp [Json.serialize]
      rw [harg, parseVal_succ, skipWs_cons_of _ _ (by decide)]
      simp +decide
    | true =>
      have harg : Json.serialize (Json.bool true) ++ rest =
          't' :: 'r' :: 'u' :: 'e' :: rest := by
        simp [Json.serialize]
      rw [harg, parseVal_succ, skipWs_cons_of _ _ (by decide)]
      simp +decide
  | num i =>
    by_cases hi : i < 0
    · have harg : Json.serialize (Json.num i) ++ rest =
          '-' :: (natToChars i.natAbs ++ rest) := by
        simp [Json.serialize, intToChars, hi]
      rw [harg, parseVal_succ, skipWs_cons_of _ _ (by decide)]
      simp +decide [parseNumFrom_natToChars i.natAbs rest hb]
      simp [abs_of_neg hi]
    · obtain ⟨c, t, hct⟩ : ∃ c t, natToChars i.natAbs = c :: t := by
        cases hnc : natToChars i.natAbs with
        | nil => exact absurd hnc (natToChars_ne_nil _)
        | cons c t => exact ⟨c, t, rfl⟩
      have hdig : isDigitChar c = true :=
        natToChars_digits i.natAbs c (hct ▸ List.mem_cons_self c t)
      have harg : Json.serialize (Json.num i) ++ rest = c :: (t ++ rest) := by
        simp [Json.serialize, intToChars, hi, hct]
      rw [harg, parseVal_succ, skipWs_cons_of _ _ (digit_not_ws c hdig)]
      simp only [hdig, if_true]
      rw [← List.cons_append, ← hct, parseNumFrom_natToChars i.natAbs rest hb]
      have hcast : ((i.natAbs : Nat) : Int) = i := by omega
      rw [hcast]
  | str s =>
    have harg : Json.serialize (Json.str s) ++ rest =
        '"' :: (escString s ++ '"' :: rest) := by
      simp [Json.serialize, quoteStr]
    rw [harg, parseVal_succ, skipWs_cons_of _ _ (by decide)]
    simp +decide [parseStrBody_escString]
  | arr es =>
    cases es with
    | nil =>
      have harg : Json.serialize (Json.arr []) ++ rest = '[' :: ']' :: rest := by
        simp [Json.serialize, serializeElems]
      rw [harg, parseVal_succ, skipWs_cons_of _ _ (by decide)]
      simp +decide [skipWs_cons_of _ _ (show isWsChar ']' = false by decide)]
    | cons e t =>
      have hft : jfuelElems (e :: t) ≤ f := by
        have hj : jfuel (Json.arr (e :: t)) = 1 + jfuelElems (e :: t) := by
          simp [jfuel]
        omega
      obtain ⟨c0, u0, hcu, hg⟩ := serializeElems_head e t
      have harg : Json.serialize (Json.arr (e :: t)) ++ rest =
          '[' :: (serializeElems (e :: t) ++ ']' :: rest) := by
        simp [Json.serialize]
      have hne1 : ¬ c0 = ']' := goodStart_ne c0 ']' hg (by decide)
      have hrec := parseElems_serialize (e :: t) f rest (List.cons_ne_nil e t) hft
      rw [hcu, List.cons_append] at hrec
      rw [harg, parseVal_succ, skipWs_cons_of _ _ (by decide), hcu]
      simp +decide [skipWs_cons_of _ _ (goodStart_not_ws c0 hg), hne1]
      rw [hrec]
  | obj ms =>
    cases ms with
    | nil =>
      have harg : Json.serialize (Json.obj []) ++ rest = '\x7b' :: '\x7d' :: rest := by
        simp [Json.serialize, serializeMembers]
      rw [harg, parseVal_succ, skipWs_cons_of _ _ (by decide)]
      simp +decide [skipWs_cons_of _ _ (show isWsChar '\x7d' = false by decide)]
    | cons m t =>
      have hft : jfuelMembers (m :: t) ≤ f := by
        have hj : jfuel (Json.obj (m :: t)) = 1 + jfuelMembers (m :: t) := by
          simp [jfuel]
        omega
      obtain ⟨u0, hu⟩ := serializeMembers_head m t
      have harg : Json.serialize (Json.obj (m :: t)) ++ rest =
          '\x7b' :: (serializeMembers (m :: t) ++ '\x7d' :: rest) := by
        simp [Json.serialize]
      have hrec := parseMembers_serialize (m :: t) f rest (List.cons_ne_nil _ t) hft
      rw [hu, List.cons_append] at hrec
      rw [harg, parseVal_succ, skipWs_cons_of _ _ (by decide), hu]
      simp +decide [skipWs_cons_of _ _ (show isWsChar '"' = false by decide)]
      rw [hrec]
termination_by sizeOf j

theorem parseElems_serialize (es : List Json) (fuel : Nat) (rest : Str)
    (hne : es ≠ []) (hf : jfuelElems es ≤ fuel) :
    parseElems fuel (serializeElems es ++ ']' :: rest) = some (es, rest) := by
  match es, hne with
  | e :: t, _ =>
    have hfe : jfuelElems (e :: t) = 1 + max (jfuel e) (jfuelElems t) := by
      simp [jfuelElems]
    obtain ⟨f, rfl⟩ : ∃ f, fuel = f + 1 := ⟨fuel - 1, by omega⟩
    have hf1 : jfuel e ≤ f := by omega
    cases t with
    | nil =>
      have harg : serializeElems [e] ++ ']' :: rest =
          Json.serialize e ++ ']' :: rest := by
        simp [serializeElems]
      rw [harg, parseElems_succ,
        parseVal_serialize e f (']' :: rest) hf1 (head_bound_of_nondigit _ _ (by decide))]
      simp +decide [skipWs_cons_of _ _ (show isWsChar ']' = false by decide)]
    | cons e2 t2 =>
      have hf2 : jfuelElems (e2 :: t2) ≤ f := by omega
      have harg : serializeElems (e :: e2 :: t2) ++ ']' :: rest =
          Json.serialize e ++ ',' :: (serializeElems (e2 :: t2) ++ ']' :: rest) := by
        simp [serializeElems]
      rw [harg, parseElems_succ,
        parseVal_serialize e f _ hf1 (head_bound_of_nondigit _ _ (by decide))]
      simp +decide [skipWs_cons_of _ _ (show isWsChar ',' = false by decide),
        parseElems_serialize (e2 :: t2) f rest (List.cons_ne_nil e2 t2) hf2]
termination_by sizeOf es

theorem parseMembers_serialize (ms : List (Str × Json)) (fuel : Nat) (rest : Str)
    (hne : ms ≠ []) (hf : jfuelMembers ms ≤ fuel) :
    parseMembers fuel (serializeMembers ms ++ '\x7d' :: rest) = some (ms, rest) := by
  match ms, hne with
  | (k, v) :: t, _ =>
    have hfm : jfuelMembers ((k, v) :: t) = 1 + max (jfuel v) (jfuelMembers t) := by
      simp [jfuelMembers]
    obtain ⟨f, rfl⟩ : ∃ f, fuel = f + 1 := ⟨fuel - 1, by omega⟩
    have hf1 : jfuel v ≤ f := by omega
    cases t with
    | nil =>
      have harg : serializeMembers [(k, v)] ++ '\x7d' :: rest =
          '"' :: (escString k ++ '"' :: (':' :: (Json.serialize v ++ '\x7d' :: rest))) := by
        simp [serializeMembers, quoteStr]
      rw [harg, parseMembers_succ, skipWs_cons_of _ _ (by decide)]
      simp +decide [parseStrBody_escString,
        skipWs_cons_of _ _ (show isWsChar ':' = false by decide),
        skipWs_cons_of _ _ (show isWsChar '\x7d' = false by decide),
        parseVal_serialize v f ('\x7d' :: rest) hf1
          (head_bound_of_nondigit '\x7d' rest (by decide))]
    | cons m2 t2 =>
      have hf2 : jfuelMembers (m2 :: t2) ≤ f := by omega
      have harg : serializeMembers ((k, v) :: m2 :: t2) ++ '\x7d' :: rest =
          '"' :: (escString k ++ '"' :: (':' :: (Json.serialize v ++
            ',' :: (serializeMembers (m2 :: t2) ++ '\x7d' :: rest)))) := by
        simp [serializeMembers, quoteStr]
      rw [harg, parseMembers_succ, skipWs_cons_of _ _ (by decide)]
      simp +decide [parseStrBody_escString,
        skipWs_cons_of _ _ (show isWsChar ':' = false by decide),
        skipWs_cons_of _ _ (show isWsChar ',' = false by decide),
        parseVal_serialize v f
          (',' :: (serializeMembers (m2 :: t2) ++ '\x7d' :: rest)) hf1
          (head_bound_of_nondigit ','
            (serializeMembers (m2 :: t2) ++ '\x7d' :: rest) (by decide)),
        parseMembers_serialize (m2 :: t2) f rest (List.cons_ne_nil m2 t2) hf2]
termination_by sizeOf ms

end

mutual

theorem jfuel_le_serialize (j : Json) : jfuel j ≤ 2 * (Json.serialize j).length := by
  cases j with
  | null => simp [jfuel, Json.serialize]
  | bool b => cases b <;> simp [jfuel, Json.serialize]
  | num i =>
    have h := serialize_length_pos (Json.num i)
    have hj : jfuel (Json.num i) = 1 := by simp [jfuel]
    omega
  | str s =>
    have h := serialize_length_pos (Json.str s)
    have hj : jfuel (Json.str s) = 1 := by simp [jfuel]
    omega
  | arr es =>
    have h := jfuelElems_le_serialize es
    have hj : jfuel (Json.arr es) = 1 + jfuelElems es := by simp [jfuel]
    have hlen : (Json.serialize (Json.arr es)).length = (serializeElems es).length + 2 := by
      simp [Json.serialize]
    omega
  | obj ms =>
    have h := jfuelMembers_le_serialize ms
    have hj : jfuel (Json.obj ms) = 1 + jfuelMembers ms := by simp [jfuel]
    have hlen : (Json.serialize (Json.obj ms)).length =
        (serializeMembers ms).length + 2 := by
      simp [Json.serialize]
    omega
termination_by sizeOf j

theorem jfuelElems_le_serialize (es : List Json) :
    jfuelElems es ≤ 2 * (serializeElems es).length + 1 := by
  match es with
  | [] => simp [jfuelElems]
  | [e] =>
    have h := jfuel_le_serialize e
    have h1 : jfuelElems [e] = 1 + max (jfuel e) (jfuelElems []) := by simp [jfuelElems]
    have h2 : jfuelElems ([] : List Json) = 0 := by simp [jfuelElems]
    have h3 : serializeElems [e] = Json.serialize e := by simp [serializeElems]
    rw [h1, h2, h3]
    omega
  | e :: e2 :: t2 =>
    have h := jfuel_le_serialize e
    have h2 := jfuelElems_le_serialize (e2 :: t2)
    have h1 : jfuelElems (e :: e2 :: t2) =
        1 + max (jfuel e) (jfuelElems (e2 :: t2)) := by simp [jfuelElems]
    have h3 : (serializeElems (e :: e2 :: t2)).length =
        (Json.serialize e).length + 1 + (serializeElems (e2 :: t2)).length := by
      simp [serializeElems]
      omega
    omega
termination_by sizeOf es

theorem jfuelMembers_le_serialize (ms : List (Str × Json)) :
    jfuelMembers ms ≤ 2 * (serializeMembers ms).length + 1 := by
  match ms with
  | [] => simp [jfuelMembers]
  | [(k, v)] =>
    have h := jfuel_le_serialize v
    have h1 : jfuelMembers [(k, v)] = 1 + max (jfuel v) (jfuelMembers []) := by
      simp [jfuelMembers]
    have h2 : jfuelMembers ([] : List (Str × Json)) = 0 := by simp [jfuelMembers]
    have h3 : (serializeMembers [(k, v)]).length =
        (quoteStr k).length + 1 + (Json.serialize v).length := by
      simp [serializeMembers]
      omega
    omega
  | (k, v) :: m2 :: t2 =>
    have h := jfuel_le_serialize v
    have h2 := jfuelMembers_le_serialize (m2 :: t2)
    have h1 : jfuelMembers ((k, v) :: m2 :: t2) =
        1 + max (jfuel v) (jfuelMembers (m2 :: t2)) := by simp [jfuelMembers]
    have h3 : (serializeMembers ((k, v) :: m2 :: t2)).length =
        (quoteStr k).length + 1 + (Json.serialize v).length + 1 +
          (serializeMembers (m2 :: t2)).length := by
      simp [serializeMembers]
      omega
    omega
termination_by sizeOf ms

end

/-- Parsing the serialization of any JSON value returns exactly that value:
the serialized form is structure-equivalent to the original. -/
theorem goUnmarshal_serialize (j : Json) : goUnmarshal (Json.serialize j) = some j := by
  have hfuel : jfuel j ≤ 2 * (Json.serialize j).length + 2 :=
    le_trans (jfuel_le_serialize j) (by omega)
  have h := parseVal_serialize j (2 * (Json.serialize j).length + 2) [] hfuel
    (by intro c hc; simp at hc)
  rw [List.append_nil] at h
  rw [goUnmarshal, h]
  rfl

/-! ## Body payload conversion
(internal/auditlog/service/reports.go, `parseBodyRaw` / `marshalToJSONBString`) -/

/-- Embedding of `parseBodyRaw`: empty string becomes `nil` (`none`), a string
that unmarshals becomes the parsed JSON value (`Sum.inl`), any other string is
kept as a Go string value (`Sum.inr`). -/
def parseBodyRaw (bodyRaw : Str) : Option (Json ⊕ Str) :=
  if bodyRaw = [] then none
  else
    match goUnmarshal bodyRaw with
    | some j => some (Sum.inl j)
    | none => some (Sum.inr bodyRaw)

/-- `json.Marshal` on the `interface\x7b\x7d` value held after `parseBodyRaw`:
a decoded JSON value re-serializes as itself, a Go string value marshals as a
JSON string literal (quoted and escaped). -/
def goMarshalValue : Json ⊕ Str → Str
  | Sum.inl j => Json.serialize j
  | Sum.inr s => Json.serialize (Json.str s)

/-- Embedding of `marshalToJSONBString`.  `json.Marshal` cannot fail on the
value shapes produced by `parseBodyRaw`/`parseQueryRaw` (maps, slices,
strings, bools, numbers, nil), so the Go fallback branch that would return
`rawString` is dead code in this model. -/
def marshalToJSONBString (parsed : Option (Json ⊕ Str)) (rawString : Str) : Option Str :=
  match parsed, rawString with
  | none, _ => none
  | some v, _ => some (goMarshalValue v)

/-- The value bound to the `body_raw` (or `response_body`) insert parameter in
`BatchInsertAuditLogs` for a given optional raw payload field. -/
def bodyRawColumn (b : Option Str) : Option Str :=
  b.bind (fun s => marshalToJSONBString (parseBodyRaw s) s)

/-- C5 counterexample: the non-JSON payload `"abc"` is persisted as the
JSON string literal `"\"abc\""` (quoted), not as the literal original
string `"abc"`. -/
theorem C5_counterexample_nonjson_persisted_quoted :
    marshalToJSONBString (parseBodyRaw ['a', 'b', 'c']) ['a', 'b', 'c'] =
      some ['"', 'a', 'b', 'c', '"'] ∧
    (['"', 'a', 'b', 'c', '"'] : Str) ≠ ['a', 'b', 'c'] := by
  constructor
  · rfl
  · decide

/-- C5 (amended): for a payload that is syntactically valid JSON the persisted
value is the re-serialization of the parsed structure, which parses back to
the same structure as the submitted payload (structure-equivalent, not
necessarily the literal string); for a non-empty payload that is not valid
JSON the persisted value is the JSON string literal carrying the original
string, which decodes back to exactly the original string. -/
theorem C5_bodyRaw_persistence (s : Str) :
    (∀ j, goUnmarshal s = some j →
      marshalToJSONBString (parseBodyRaw s) s = some (Json.serialize j) ∧
      goUnmarshal (Json.serialize j) = some j) ∧
    (s ≠ [] → goUnmarshal s = none →
      marshalToJSONBString (parseBodyRaw s) s = some (Json.serialize (Json.str s)) ∧
      goUnmarshal (Json.serialize (Json.str s)) = some (Json.str s)) := by
  constructor
  · intro j hj
    have hne : s ≠ [] := by
      intro h0
      subst h0
      rw [show goUnmarshal [] = none from rfl] at hj
      exact Option.noConfusion hj
    refine ⟨?_, goUnmarshal_serialize j⟩
    simp [parseBodyRaw, marshalToJSONBString, hne, hj, goMarshalValue]
  · intro hne hnone
    refine ⟨?_, goUnmarshal_serialize (Json.str s)⟩
    simp [parseBodyRaw, marshalToJSONBString, hne, hnone, goMarshalValue]

/-- Witness for C5 at concrete inputs: the valid JSON payload `"true"`
persists as its re-serialization `"true"`, and the non-JSON payload `"hi"`
persists as `"\"hi\""`, which decodes back to `"hi"`. -/
theorem C5_bodyRaw_persistence_witness :
    marshalToJSONBString (parseBodyRaw ['t', 'r', 'u', 'e']) ['t', 'r', 'u', 'e'] =
      some ['t', 'r', 'u', 'e'] ∧
    marshalToJSONBString (parseBodyRaw ['h', 'i']) ['h', 'i'] =
      some ['"', 'h', 'i', '"'] ∧
    goUnmarshal ['"', 'h', 'i', '"'] = some (Json.str ['h', 'i']) := by
  have h1 := (C5_bodyRaw_persistence ['t', 'r', 'u', 'e']).1 (Json.bool true) rfl
  have h2 := (C5_bodyRaw_persistence ['h', 'i']).2 (by decide) rfl
  exact ⟨h1.1, h2.1, h2.2⟩

/-! ## Normalizer (service handlers file, `normalizeEndpoint` / `normalizeAction`)

`normalizeEndpoint` applies the regex replacement
`numericEndingRegex.ReplaceAllString(path, "/*")` with pattern `/\d+$`.
That anchored pattern matches exactly when the path ends in `'/'` followed by
one or more digits (the digit run is maximal because the character before it
is `'/'`), so the replacement is embedded directly: strip the maximal trailing
digit run, and if it is non-empty and preceded by `'/'`, replace it with
`'*'`. -/
def normalizeEndpoint (path : Str) : Str :=
  let revDigits := path.reverse.takeWhile isDigitChar
  let rest := path.reverse.dropWhile isDigitChar
  if revDigits ≠ [] ∧ rest.head? = some '/' then rest.reverse ++ ['*']
  else path

/-- `purelyNumericRegex.MatchString` for pattern `^\d+$`. -/
def isNumericStr (s : Str) : Bool :=
  !s.isEmpty && s.all isDigitChar

/-- `strings.Trim(s, string(c))`: remove all leading and trailing `c`s. -/
def trimChar (c : Char) (s : Str) : Str :=
  ((s.dropWhile (· == c)).reverse.dropWhile (· == c)).reverse

/-- `strings.TrimSuffix(s, "s")`: drop one trailing `'s'` when present. -/
def trimSuffixS (s : Str) : Str :=
  if s.getLast? = some 's' then s.dropLast else s

/-- Embedding of `normalizeAction` (action name, pre-normalization endpoint
path).  `strings.Split` on `'/'` is `List.splitOn` (empty segments included,
`Split("","/") = [""]`). -/
def normalizeAction (action endpointPath : Str) : Str :=
  if action = [] ∨ isNumericStr action = false then action
  else
    let parts := (trimChar '/' endpointPath).splitOn '/'
    if 3 ≤ parts.length then
      trimSuffixS (parts.getD 2 []) ++ ['-', 'b', 'y', '-', 'i', 'd']
    else action

theorem normalizeEndpoint_of_no_digit_tail (p : Str)
    (h : ∀ c, p.reverse.head? = some c → isDigitChar c = false) :
    normalizeEndpoint p = p := by
  cases hr : p.reverse with
  | nil => simp [normalizeEndpoint, hr]
  | cons c t =>
    have hc : isDigitChar c = false := h c (by rw [hr]; rfl)
    simp [normalizeEndpoint, hr, List.takeWhile_cons, hc]

theorem normalizeEndpoint_digit_tail (a d : Str) (hne : d ≠ [])
    (hd : ∀ c ∈ d, isDigitChar c = true) :
    normalizeEndpoint (a ++ '/' :: d) = a ++ ['/', '*'] := by
  have hrev : (a ++ '/' :: d).reverse = d.reverse ++ '/' :: a.reverse := by
    simp
  obtain ⟨htake, hdrop⟩ := takeWhile_append_of isDigitChar d.reverse ('/' :: a.reverse)
    (fun c hc => hd c (List.mem_reverse.mp hc))
    (by intro c hc; rw [List.head?_cons, Option.some.injEq] at hc; subst hc; decide)
  have hrne : d.reverse ≠ [] := by
    intro h0
    exact hne (List.reverse_eq_nil_iff.mp h0)
  simp only [normalizeEndpoint, hrev, htake, hdrop]
  rw [if_pos ⟨hrne, rfl⟩]
  simp

/-- C7: endpoint normalization replaces exactly a trailing `/<digits>` suffix
with `/*` leaving the prefix (including any interior numeric segments)
unchanged, leaves every other path unchanged — in particular a path already
ending in `/*` — and is idempotent. -/
theorem C7_normalizeEndpoint_spec (p : Str) :
    (∀ a d, p = a ++ '/' :: d → d ≠ [] → (∀ c ∈ d, isDigitChar c = true) →
      normalizeEndpoint p = a ++ ['/', '*']) ∧
    (∀ a, p = a ++ ['/', '*'] → normalizeEndpoint p = p) ∧
    normalizeEndpoint (normalizeEndpoint p) = normalizeEndpoint p := by
  refine ⟨?_, ?_, ?_⟩
  · intro a d hp hne hd
    subst hp
    exact normalizeEndpoint_digit_tail a d hne hd
  · intro a hp
    subst hp
    apply normalizeEndpoint_of_no_digit_tail
    intro c hc
    simp only [List.reverse_append, List.reverse_cons, List.reverse_nil,
      List.nil_append, List.cons_append, List.head?_cons, Option.some.injEq] at hc
    subst hc
    decide
  · by_cases hc : p.reverse.takeWhile isDigitChar ≠ [] ∧
        (p.reverse.dropWhile isDigitChar).head? = some '/'
    · have h1 : normalizeEndpoint p =
          (p.reverse.dropWhile isDigitChar).reverse ++ ['*'] := by
        simp only [normalizeEndpoint]
        rw [if_pos hc]
      rw [h1]
      apply normalizeEndpoint_of_no_digit_tail
      intro c hcc
      simp only [List.reverse_append, List.reverse_cons, List.reverse_nil,
        List.nil_append, List.singleton_append, List.cons_append, List.head?_cons,
        Option.some.injEq] at hcc
      subst hcc
      decide
    · have h1 : normalizeEndpoint p = p := by
        simp only [normalizeEndpoint]
        rw [if_neg hc]
      rw [h1, h1]

/-- Witness for C7: `"/api/v1/goals/135"` (with an interior numeric segment
`v1` left alone elsewhere) normalizes to `"/api/v1/goals/*"`, `"/x/*"` is a
fixed point, and idempotence holds at `"/a/7"`. -/
theorem C7_normalizeEndpoint_witness :
    normalizeEndpoint "/api/v1/goals/135".toList = "/api/v1/goals/*".toList ∧
    normalizeEndpoint "/x/*".toList = "/x/*".toList ∧
    normalizeEndpoint (normalizeEndpoint "/a/7".toList) =
      normalizeEndpoint "/a/7".toList := by
  obtain ⟨h1, h2, -⟩ := C7_normalizeEndpoint_spec "/api/v1/goals/135".toList
  obtain ⟨-, h4, -⟩ := C7_normalizeEndpoint_spec "/x/*".toList
  obtain ⟨-, -, h5⟩ := C7_normalizeEndpoint_spec "/a/7".toList
  refine ⟨?_, h4 "/x".toList (by decide), h5⟩
  have := h1 "/api/v1/goals".toList "135".toList (by decide) (by decide) (by decide)
  rw [this]
  decide

/-- C8: a purely numeric action with an endpoint path of at least three
slash-delimited segments (after trimming outer slashes) is replaced by the
third segment, singularized by dropping one trailing `s`, suffixed with
`-by-id`; a non-numeric (or empty) action, or a path with fewer than three
segments, leaves the action unchanged. -/
theorem C8_normalizeAction_spec (action path : Str) :
    (isNumericStr action = true →
      3 ≤ ((trimChar '/' path).splitOn '/').length →
      normalizeAction action path =
        trimSuffixS (((trimChar '/' path).splitOn '/').getD 2 []) ++
          ['-', 'b', 'y', '-', 'i', 'd']) ∧
    (isNumericStr action = false → normalizeAction action path = action) ∧
    (isNumericStr action = true →
      ((trimChar '/' path).splitOn '/').length < 3 →
      normalizeAction action path = action) := by
  refine ⟨?_, ?_, ?_⟩
  · intro hnum hlen
    have hne : ¬ (action = [] ∨ isNumericStr action = false) := by
      rintro (h0 | h0)
      · subst h0; exact absurd hnum (by decide)
      · rw [h0] at hnum; exact Bool.noConfusion hnum
    simp only [normalizeAction]
    rw [if_neg hne, if_pos hlen]
  · intro hnum
    simp only [normalizeAction]
    rw [if_pos (Or.inr hnum)]
  · intro hnum hlen
    have hne : ¬ (action = [] ∨ isNumericStr action = false) := by
      rintro (h0 | h0)
      · subst h0; exact absurd hnum (by decide)
      · rw [h0] at hnum; exact Bool.noConfusion hnum
    simp only [normalizeAction]
    rw [if_neg hne, if_neg (by omega)]

/-- Witness for C8: action `"135"` with endpoint `"/api/v1/goals/135"` yields
`"goal-by-id"`; the non-numeric action `"list"` is unchanged; the numeric
action `"135"` with the two-segment endpoint `"/api/v1"` is unchanged. -/
theorem C8_normalizeAction_witness :
    normalizeAction "135".toList "/api/v1/goals/135".toList = "goal-by-id".toList ∧
    normalizeAction "list".toList "/api/v1/goals/135".toList = "list".toList ∧
    normalizeAction "135".toList "/api/v1".toList = "135".toList := by
  obtain ⟨h1, -, -⟩ := C8_normalizeAction_spec "135".toList "/api/v1/goals/135".toList
  obtain ⟨-, h2, -⟩ := C8_normalizeAction_spec "list".toList "/api/v1/goals/135".toList
  obtain ⟨-, -, h3⟩ := C8_normalizeAction_spec "135".toList "/api/v1".toList
  refine ⟨?_, h2 (by decide), h3 (by decide) (by decide)⟩
  rw [h1 (by decide) (by decide)]
  decide

/-! ## Ingest handler (service handlers file, `AuditService.CreateAuditLogsHandler`)

The handler is modeled after JSON decoding of the request body: it receives
the decoded list of entries and the current buffer.  The HTTP response is
abstracted as `badRequest msg` (400) or `accepted queuedCount` (202). -/

inductive HandlerResult where
  | badRequest (msg : Str)
  | accepted (queuedCount : Nat)
deriving Repr, DecidableEq

/-- The three required-field checks of the validation loop, in source order,
with the message produced for entry index `i`. -/
def requiredFieldError (i : Nat) (l : AuditLog) : Option Str :=
  if l.endpointPath = [] then
    some ("endpoint_path is required for log entry ".toList ++ natToChars i)
  else if l.httpMethod = [] then
    some ("http_method is required for log entry ".toList ++ natToChars i)
  else if l.statusCode = 0 then
    some ("status_code is required for log entry ".toList ++ natToChars i)
  else none

/-- The per-entry mutation of the validation loop: default severity, then
normalize the action against the pre-normalization endpoint path, then
normalize the endpoint path. -/
def normalizeLogEntry (l : AuditLog) : AuditLog :=
  let l1 := { l with severity := if l.severity = [] then "NONE".toList else l.severity }
  let l2 := { l1 with action := l1.action.map (fun a => normalizeAction a l1.endpointPath) }
  { l2 with endpointPath := normalizeEndpoint l2.endpointPath }

/-- The validation/normalization loop over `req.Logs`, starting at entry
index `start`: stops with the first failing entry's message. -/
def validateAndNormalize (start : Nat) : List AuditLog → Except Str (List AuditLog)
  | [] => .ok []
  | l :: rest =>
    match requiredFieldError start l with
    | some msg => .error msg
    | none =>
      match validateAndNormalize (start + 1) rest with
      | .error msg => .error msg
      | .ok ls => .ok (normalizeLogEntry l :: ls)

/-- Embedding of `CreateAuditLogsHandler` after request decoding. -/
def createAuditLogsHandler (buf : Buffer) (logs : List AuditLog) :
    Buffer × HandlerResult :=
  if logs.length = 0 then (buf, .badRequest "Logs array cannot be empty".toList)
  else
    match validateAndNormalize 0 logs with
    | .error msg => (buf, .badRequest msg)
    | .ok normalized =>
      let r := buf.AddLogs normalized
      (r.1, .accepted r.2)

theorem validateAndNormalize_error (logs : List AuditLog) :
    ∀ (start i : Nat) (hi : i < logs.length) (msg : Str),
      (∀ j (hj : j < logs.length), j < i →
        requiredFieldError (start + j) (logs.get ⟨j, hj⟩) = none) →
      requiredFieldError (start + i) (logs.get ⟨i, hi⟩) = some msg →
      validateAndNormalize start logs = Except.error msg := by
  induction logs with
  | nil => intro start i hi; exact absurd hi (by simp)
  | cons l rest ih =>
    intro start i hi msg hprev herr
    cases i with
    | zero =>
      simp only [List.get] at herr
      rw [Nat.add_zero] at herr
      simp [validateAndNormalize, herr]
    | succ i0 =>
      have h0 : requiredFieldError start l = none := by
        have := hprev 0 (by simp) (Nat.succ_pos i0)
        simpa using this
      have hi0 : i0 < rest.length := by
        simp only [List.length_cons] at hi
        omega
      have hrec := ih (start + 1) i0 hi0 msg
        (fun j hj hlt => by
          have := hprev (j + 1) (by simp only [List.length_cons]; omega)
            (by omega)
          simp only [List.get] at this
          rw [show start + (j + 1) = start + 1 + j by omega] at this
          exact this)
        (by
          simp only [List.get] at herr
          rw [show start + (i0 + 1) = start + 1 + i0 by omega] at herr
          exact herr)
      simp [validateAndNormalize, h0, hrec]

/-- C4 (amended): a `POST /api/audit-logs` body whose entries include one
lacking a required field — endpoint path, HTTP method, or status code
(latency is not validated) — is rejected with a 400 whose message names the
first offending entry's index and the missing field, and the buffer is left
unchanged (no event enqueued); an empty array is rejected with 400. -/
theorem C4_create_handler_validation (buf : Buffer) (logs : List AuditLog) :
    (logs = [] →
      createAuditLogsHandler buf logs =
        (buf, .badRequest "Logs array cannot be empty".toList)) ∧
    (∀ i (hi : i < logs.length) msg,
      (∀ j (hj : j < logs.length), j < i →
        requiredFieldError j (logs.get ⟨j, hj⟩) = none) →
      requiredFieldError i (logs.get ⟨i, hi⟩) = some msg →
      createAuditLogsHandler buf logs = (buf, .badRequest msg)) := by
  constructor
  · intro h
    subst h
    simp [createAuditLogsHandler]
  · intro i hi msg hprev herr
    have hne : ¬ logs.length = 0 := by
      intro h0
      rw [h0] at hi
      exact absurd hi (by omega)
    have hval := validateAndNormalize_error logs 0 i hi msg
      (fun j hj hlt => by
        rw [Nat.zero_add]
        exact hprev j hj hlt)
      (by rw [Nat.zero_add]; exact herr)
    simp [createAuditLogsHandler, hne, hval]

/-- Witness for C4 (amended) at a concrete input: a single entry with an
endpoint path and status code but no HTTP method is rejected with the message
naming field and index 0, leaving the buffer untouched. -/
theorem C4_create_handler_validation_witness :
    createAuditLogsHandler { logChan := [], maxSize := 5 }
        [{ endpointPath := "/x".toList, statusCode := 200 }] =
      ({ logChan := [], maxSize := 5 },
       .badRequest ("http_method is required for log entry ".toList ++ natToChars 0)) := by
  have h := (C4_create_handler_validation { logChan := [], maxSize := 5 }
    [{ endpointPath := "/x".toList, statusCode := 200 }]).2 0 (by decide)
    ("http_method is required for log entry ".toList ++ natToChars 0)
    (fun j hj hlt => absurd hlt (Nat.not_lt_zero j))
    (by decide)
  exact h

/-- C4 counterexample: an entry whose latency (response time) carries the Go
zero value — i.e. the field is absent from the request — but whose endpoint
path, method, and status code are present is NOT rejected: the handler
accepts it (202) and enqueues it, refuting the claim that a missing latency
is a 400 validation failure with nothing enqueued. -/
theorem C4_counterexample_latency_not_validated :
    (createAuditLogsHandler { logChan := [], maxSize := 4 }
        [{ endpointPath := "/x".toList, httpMethod := "GET".toList,
           statusCode := 200, responseTimeSeconds := 0 }]).2 = .accepted 1 ∧
    (createAuditLogsHandler { logChan := [], maxSize := 4 }
        [{ endpointPath := "/x".toList, httpMethod := "GET".toList,
           statusCode := 200, responseTimeSeconds := 0 }]).1.logChan.length = 1 := by
  decide

/-! ## Audit store reads (internal/auditlog/service/reports.go, `AuditLogDB.GetAuditLogs`)

The `audit_logs` table is modeled as a list of rows, each a stored `AuditLog`
together with its server-assigned creation instant (an integer).  SQL
`SELECT ... WHERE ... ORDER BY created_at DESC LIMIT n` is given its standard
semantics: filter, sort by the key descending, truncate. -/

structure DbRow where
  log : AuditLog
  createdAt : Int
deriving Repr, DecidableEq

/-- Rows ordered by creation instant descending. -/
def createdDesc (a b : DbRow) : Prop := b.createdAt ≤ a.createdAt

instance : DecidableRel createdDesc := fun a b => Int.decLe b.createdAt a.createdAt

instance : IsTotal DbRow createdDesc :=
  ⟨fun a b => (le_total b.createdAt a.createdAt).elim Or.inl Or.inr⟩

instance : IsTrans DbRow createdDesc :=
  ⟨fun _ _ _ hab hbc => le_trans hbc hab⟩

/-- The limit validation at the top of `GetAuditLogs`. -/
def clampLimit (limit : Int) : Int :=
  if limit ≤ 0 then 500
  else if limit > 500 then 500
  else limit

/-- The optional `user_id = $n` predicate: only added when the pointer is
non-nil and the value non-empty. -/
def matchesUserID (userID : Option Str) (r : DbRow) : Bool :=
  match userID with
  | none => true
  | some u => if u = [] then true else r.log.userID == some u

/-- The optional `action = $n` predicate. -/
def matchesAction (action : Option Str) (r : DbRow) : Bool :=
  match action with
  | none => true
  | some a => if a = [] then true else r.log.action == some a

/-- Embedding of `AuditLogDB.GetAuditLogs`. -/
def getAuditLogs (table : List DbRow) (userID action : Option Str) (limit : Int) :
    List DbRow :=
  let lim := clampLimit limit
  let filtered := table.filter (fun r => matchesUserID userID r && matchesAction action r)
  (List.insertionSort createdDesc filtered).take lim.toNat

/-- The `limit` query-parameter handling in `GetAuditLogsHandler`: absent
defaults to 500, a parsed value in (0, 500] is used, above 500 clamps to 500,
zero or negative keeps the default 500.  (An unparsable value is a 400 before
this point.) -/
def effectiveLimitParam (limitParam : Option Int) : Int :=
  match limitParam with
  | none => 500
  | some parsed =>
    if parsed > 0 ∧ parsed ≤ 500 then parsed
    else if parsed > 500 then 500
    else 500

/-- C9: the effective row limit is always in [1, 500]: absent, zero, or
negative limits fall back to 500, a limit above 500 clamps to 500, a limit in
[1, 500] is used as given (both at the handler and at the store), and the
read returns at most that many rows, ordered by creation instant
descending. -/
theorem C9_getAuditLogs_limit_clamp (table : List DbRow)
    (userID action : Option Str) (limit : Int) :
    (1 ≤ clampLimit limit ∧ clampLimit limit ≤ 500) ∧
    (limit ≤ 0 → clampLimit limit = 500) ∧
    (500 < limit → clampLimit limit = 500) ∧
    (1 ≤ limit → limit ≤ 500 → clampLimit limit = limit) ∧
    effectiveLimitParam none = 500 ∧
    (∀ z : Int, z ≤ 0 → effectiveLimitParam (some z) = 500) ∧
    (∀ z : Int, 500 < z → effectiveLimitParam (some z) = 500) ∧
    (∀ z : Int, 1 ≤ z → z ≤ 500 → effectiveLimitParam (some z) = z) ∧
    (getAuditLogs table userID action limit).length ≤ (clampLimit limit).toNat ∧
    List.Sorted createdDesc (getAuditLogs table userID action limit) := by
  refine ⟨⟨?_, ?_⟩, ?_, ?_, ?_, rfl, ?_, ?_, ?_, ?_, ?_⟩
  · simp only [clampLimit]; split <;> [omega; skip]; split <;> omega
  · simp only [clampLimit]; split <;> [omega; skip]; split <;> omega
  · intro h; simp [clampLimit, h]
  · intro h
    simp only [clampLimit]
    rw [if_neg (by omega), if_pos h]
  · intro h1 h2
    simp only [clampLimit]
    rw [if_neg (by omega), if_neg (by omega)]
  · intro z hz
    simp only [effectiveLimitParam]
    rw [if_neg (by omega), if_neg (by omega)]
  · intro z hz
    simp only [effectiveLimitParam]
    rw [if_neg (by omega), if_pos hz]
  · intro z h1 h2
    simp only [effectiveLimitParam]
    rw [if_pos ⟨by omega, h2⟩]
  · simp only [getAuditLogs]
    rw [List.length_take]
    omega
  · simp only [getAuditLogs]
    exact ((List.sorted_insertionSort createdDesc _).sublist (List.take_sublist _ _))

/-- Witness for C9 at concrete inputs: limits 0, -5, 10000, 50 produce
effective limits 500, 500, 500, 50; on a two-row table with limit 1 exactly
one row is returned, the most recent one, in sorted order. -/
theorem C9_getAuditLogs_limit_clamp_witness :
    clampLimit 0 = 500 ∧ clampLimit (-5) = 500 ∧ clampLimit 10000 = 500 ∧
    clampLimit 50 = 50 ∧
    effectiveLimitParam (some 0) = 500 ∧ effectiveLimitParam (some (-5)) = 500 ∧
    effectiveLimitParam (some 10000) = 500 ∧ effectiveLimitParam (some 50) = 50 ∧
    (getAuditLogs [{ log := {}, createdAt := 1 }, { log := {}, createdAt := 9 }]
        none none 1).length ≤ 1 ∧
    List.Sorted createdDesc
      (getAuditLogs [{ log := {}, createdAt := 1 }, { log := {}, createdAt := 9 }]
        none none 1) := by
  have h1 := C9_getAuditLogs_limit_clamp ([] : List DbRow) none none 0
  have h2 := C9_getAuditLogs_limit_clamp ([] : List DbRow) none none (-5)
  have h3 := C9_getAuditLogs_limit_clamp ([] : List DbRow) none none 10000
  have h4 := C9_getAuditLogs_limit_clamp ([] : List DbRow) none none 50
  have h5 := C9_getAuditLogs_limit_clamp
    [{ log := {}, createdAt := 1 }, { log := {}, createdAt := 9 }] none none 1
  refine ⟨h1.2.1 (by omega), h2.2.1 (by omega), h3.2.2.1 (by omega),
    h4.2.2.2.1 (by omega) (by omega),
    h1.2.2.2.2.2.1 0 (by omega), h1.2.2.2.2.2.1 (-5) (by omega),
    h1.2.2.2.2.2.2.1 10000 (by omega),
    h1.2.2.2.2.2.2.2.1 50 (by omega) (by omega), ?_, h5.2.2.2.2.2.2.2.2.2⟩
  have hlen := h5.2.2.2.2.2.2.2.2.1
  have hcl : clampLimit 1 = 1 := h5.2.2.2.1 (by omega) (by omega)
  rw [hcl] at hlen
  exact hlen

/-! ## Query-string payload conversion
(internal/auditlog/service/reports.go, `parseQueryRaw`)

`url.ParseQuery` is modeled: split on `'&'`, cut each segment at the first
`'='`, reject any segment containing `';'`, percent-decode both halves
(`'+'` becomes space, `%XX` becomes the byte value; decoding is per byte, a
multi-byte UTF-8 sequence is modeled as one character per byte).  Any
error makes the whole parse fail, which `parseQueryRaw` answers by
falling back to the raw string.  `json.Marshal` of the resulting Go map
emits keys in sorted order, modeled by sorting the entries. -/

def hexDigitVal (c : Char) : Option Nat :=
  if 48 ≤ c.toNat ∧ c.toNat ≤ 57 then some (c.toNat - 48)
  else if 65 ≤ c.toNat ∧ c.toNat ≤ 70 then some (c.toNat - 55)
  else if 97 ≤ c.toNat ∧ c.toNat ≤ 102 then some (c.toNat - 87)
  else none

/-- `url.QueryUnescape`. -/
def queryUnescape : Str → Option Str
  | [] => some []
  | '%' :: a :: b :: r =>
    match hexDigitVal a, hexDigitVal b with
    | some x, some y => (queryUnescape r).map (fun t => Char.ofNat (16 * x + y) :: t)
    | _, _ => none
  | '%' :: _ => none
  | '+' :: r => (queryUnescape r).map (fun t => ' ' :: t)
  | c :: r => (queryUnescape r).map (fun t => c :: t)

def goParseQuerySegs : List Str → Option (List (Str × Str))
  | [] => some []
  | seg :: rest =>
    if seg.contains ';' then none
    else if seg = [] then goParseQuerySegs rest
    else
      let k := seg.takeWhile (· != '=')
      let v := (seg.dropWhile (· != '=')).drop 1
      match queryUnescape k, queryUnescape v with
      | some k2, some v2 => (goParseQuerySegs rest).map (fun ps => (k2, v2) :: ps)
      | _, _ => none

/-- `url.ParseQuery`, as observed through its error flag and value map. -/
def goParseQuery (query : Str) : Option (List (Str × Str)) :=
  goParseQuerySegs (query.splitOn '&')

def upsertValue : List (Str × List Str) → Str → Str → List (Str × List Str)
  | [], k, v => [(k, [v])]
  | (k0, vs) :: t, k, v =>
    if k0 = k then (k0, vs ++ [v]) :: t
    else (k0, vs) :: upsertValue t k v

/-- `url.Values`: key to list of values, in order of first occurrence. -/
def collectValues (pairs : List (Str × Str)) : List (Str × List Str) :=
  pairs.foldl (fun m p => upsertValue m p.1 p.2) []

/-- Byte-order comparison of keys, as Go's map marshaling sorts them. -/
def strLeB (x y : Str) : Bool :=
  match x with
  | [] => true
  | a :: as =>
    match y with
    | [] => false
    | b :: bt =>
      if a.toNat < b.toNat then true
      else if b.toNat < a.toNat then false
      else strLeB as bt

/-- The JSON value for the query map: one string per single-valued key, an
array of strings for a repeated key; keys in sorted order. -/
def queryMapJson (m : List (Str × List Str)) : Json :=
  Json.obj (List.insertionSort (fun a b => strLeB a.1 b.1 = true)
    (m.map (fun kv =>
      (kv.1, match kv.2 with
             | [v] => Json.str v
             | vs => Json.arr (vs.map Json.str)))))

/-- Embedding of `parseQueryRaw`. -/
def parseQueryRaw (queryRaw : Str) : Option (Json ⊕ Str) :=
  if queryRaw = [] then none
  else
    match goParseQuery queryRaw with
    | none => some (Sum.inr queryRaw)
    | some pairs =>
      let m := collectValues pairs
      if m.isEmpty then none
      else some (Sum.inl (queryMapJson m))

/-- The value bound to the `query_raw` insert parameter. -/
def queryRawColumn (q : Option Str) : Option Str :=
  q.bind (fun s => marshalToJSONBString (parseQueryRaw s) s)

/-! ## Batch insert (internal/auditlog/service/reports.go, `AuditLogDB.BatchInsertAuditLogs`)

One table row as bound by `stmt.Exec` (17 insert parameters; `id`,
`created_at`, `severity` are assigned by the database).  The transaction is
modeled by explicit state passing: the loop accumulates rows in a
transaction-local copy of the store, and only a successful `Commit` makes it
the new store; `Begin`/`Prepare`/`Exec`/`Commit` outcomes are injected as
flags. -/

structure Row where
  userID : Option Str
  endpointPath : Str
  sessionID : Option Str
  action : Option Str
  actionDate : Option Str
  count : Option Int
  httpMethod : Str
  statusCode : Int
  responseTimeSeconds : Int
  ipAddress : Option Str
  userAgent : Option Str
  chatHistoryID : Option Int
  insightsID : Option Int
  tokensUsed : Option Int
  queryRaw : Option Str
  bodyRaw : Option Str
  responseBody : Option Str
deriving Repr, DecidableEq

/-- The argument tuple of `stmt.Exec` for one log entry, including the
payload conversions applied just before binding. -/
def toRow (l : AuditLog) : Row :=
  { userID := l.userID
    endpointPath := l.endpointPath
    sessionID := l.sessionID
    action := l.action
    actionDate := l.actionDate
    count := l.count
    httpMethod := l.httpMethod
    statusCode := l.statusCode
    responseTimeSeconds := l.responseTimeSeconds
    ipAddress := l.ipAddress
    userAgent := l.userAgent
    chatHistoryID := l.chatHistoryID
    insightsID := l.insightsID
    tokensUsed := l.tokensUsed
    queryRaw := queryRawColumn l.queryRaw
    bodyRaw := bodyRawColumn l.bodyRaw
    responseBody := bodyRawColumn l.responseBody }

/-- The `for _, logEntry := range logs` insert loop inside the transaction:
stops at the first failing `Exec`. -/
def insertLoop (execOk : AuditLog → Bool) : List Row → List AuditLog → Option (List Row)
  | acc, [] => some acc
  | acc, l :: rest =>
    if execOk l then insertLoop execOk (acc ++ [toRow l]) rest
    else none

/-- Embedding of `BatchInsertAuditLogs`: returns the error (if any) and the
resulting committed store. -/
def batchInsertAuditLogs (store : List Row) (logs : List AuditLog)
    (beginOk prepareOk : Bool) (execOk : AuditLog → Bool) (commitOk : Bool) :
    Option Str × List Row :=
  if logs.isEmpty then (none, store)
  else if !beginOk then (some "failed to begin transaction".toList, store)
  else if !prepareOk then (some "failed to prepare statement".toList, store)
  else
    match insertLoop execOk store logs with
    | none => (some "failed to insert audit log".toList, store)
    | some txStore =>
      if commitOk then (none, txStore)
      else (some "failed to commit transaction".toList, store)

theorem insertLoop_spec (execOk : AuditLog → Bool) :
    ∀ (logs : List AuditLog) (acc : List Row),
      insertLoop execOk acc logs =
        if logs.all execOk then some (acc ++ logs.map toRow) else none := by
  intro logs
  induction logs with
  | nil => intro acc; simp [insertLoop]
  | cons l rest ih =>
    intro acc
    by_cases hl : execOk l
    · rw [insertLoop, if_pos hl, ih (acc ++ [toRow l])]
      by_cases hr : rest.all execOk
      · simp [hr, hl]
      · simp [hr, hl]
    · rw [insertLoop, if_neg hl]
      simp [List.all_cons, hl]

/-- C3: for a non-empty batch, `BatchInsertAuditLogs` is atomic: either it
returns no error and the store grows by exactly the batch's rows (which
happens precisely when Begin, Prepare, every per-event Exec, and Commit all
succeed), or it returns an error and the store is completely unchanged. -/
theorem C3_batchInsert_atomic (store : List Row) (logs : List AuditLog)
    (beginOk prepareOk : Bool) (execOk : AuditLog → Bool) (commitOk : Bool)
    (hne : logs ≠ []) :
    (((batchInsertAuditLogs store logs beginOk prepareOk execOk commitOk).1 = none ∧
      (batchInsertAuditLogs store logs beginOk prepareOk execOk commitOk).2 =
        store ++ logs.map toRow) ∨
     ((batchInsertAuditLogs store logs beginOk prepareOk execOk commitOk).1 ≠ none ∧
      (batchInsertAuditLogs store logs beginOk prepareOk execOk commitOk).2 = store)) ∧
    ((batchInsertAuditLogs store logs beginOk prepareOk execOk commitOk).1 = none ↔
      beginOk = true ∧ prepareOk = true ∧ logs.all execOk = true ∧ commitOk = true) := by
  have hemp : logs.isEmpty = false := by
    cases logs with
    | nil => exact absurd rfl hne
    | cons l t => rfl
  simp only [batchInsertAuditLogs, hemp, Bool.false_eq_true, if_false,
    insertLoop_spec execOk logs store]
  cases beginOk with
  | false => simp
  | true =>
    cases prepareOk with
    | false => simp
    | true =>
      by_cases hall : logs.all execOk
      · cases commitOk with
        | true => simp [hall]
        | false => simp [hall]
      · simp [hall]

/-- Witness for C3 at concrete inputs: a singleton batch commits and appends
its row when everything succeeds, and leaves the store unchanged when the
commit fails. -/
theorem C3_batchInsert_atomic_witness :
    (batchInsertAuditLogs [] [{}] true true (fun _ => true) true).1 = none ∧
    (batchInsertAuditLogs [] [{}] true true (fun _ => true) true).2 =
      [] ++ ([{}] : List AuditLog).map toRow ∧
    (batchInsertAuditLogs [] [{}] true true (fun _ => true) false).1 ≠ none ∧
    (batchInsertAuditLogs [] [{}] true true (fun _ => true) false).2 = [] := by
  have h1 := C3_batchInsert_atomic [] [{}] true true (fun _ => true) true (by decide)
  have h2 := C3_batchInsert_atomic [] [{}] true true (fun _ => true) false (by decide)
  have hnone : (batchInsertAuditLogs [] [{}] true true (fun _ => true) true).1 = none :=
    h1.2.mpr ⟨rfl, rfl, by decide, rfl⟩
  have hfail : (batchInsertAuditLogs [] [{}] true true (fun _ => true) false).1 ≠ none := by
    intro h0
    have := (h2.2.mp h0).2.2.2
    exact Bool.noConfusion this
  refine ⟨hnone, ?_, hfail, ?_⟩
  · exact (h1.1.resolve_right (fun hr => hr.1 hnone)).2
  · exact (h2.1.resolve_left (fun hl => hfail hl.1)).2

/-- C10: an empty batch returns success immediately with the store unchanged,
independently of the Begin/Prepare/Exec/Commit outcomes — no transaction or
datastore operation is performed. -/
theorem C10_batchInsert_empty (store : List Row)
    (beginOk prepareOk : Bool) (execOk : AuditLog → Bool) (commitOk : Bool) :
    batchInsertAuditLogs store [] beginOk prepareOk execOk commitOk = (none, store) := by
  simp [batchInsertAuditLogs]

/-! ## Failed-endpoints report
(internal/auditlog/service/reports.go, `ReportService.getFailedEndpoints`)

The SQL aggregate
`SELECT COALESCE(action, endpoint_path, ''), COALESCE(endpoint_path, ''),
status_code, COUNT(*) ... WHERE created_at >= $1 AND status_code >= 400
[AND http_method = $2] GROUP BY ... ORDER BY count DESC LIMIT 400`
is modeled by filtering the table, grouping rows by the three-part key,
sorting groups by count descending, and truncating to 400.  `endpoint_path`
is non-null for stored rows (required at ingestion), so the final `''`
alternative of the COALESCE is dead.  Go then sums the returned counts and
computes each percentage against that sum (`float64` modeled as `Rat`). -/

structure FailedKey where
  action : Str
  endpointPath : Str
  statusCode : Int
deriving Repr, DecidableEq

def rowFailedKey (r : DbRow) : FailedKey :=
  { action := r.log.action.getD r.log.endpointPath
    endpointPath := r.log.endpointPath
    statusCode := r.log.statusCode }

/-- The WHERE clause: time window, failure statuses, optional method filter. -/
def failedFilter (dateFrom : Int) (httpMethod : Option Str) (r : DbRow) : Bool :=
  decide (dateFrom ≤ r.createdAt) && decide (400 ≤ r.log.statusCode) &&
    (match httpMethod with
     | none => true
     | some m => if m = [] then true else r.log.httpMethod == m)

def failedFiltered (table : List DbRow) (dateFrom : Int) (httpMethod : Option Str) :
    List DbRow :=
  table.filter (failedFilter dateFrom httpMethod)

/-- The distinct grouping keys of a row set. -/
def distinctKeys : List DbRow → List FailedKey
  | [] => []
  | r :: rest =>
    let ks := distinctKeys rest
    if ks.contains (rowFailedKey r) then ks else rowFailedKey r :: ks

/-- `COUNT(*)` for one group. -/
def countKey (rows : List DbRow) (k : FailedKey) : Nat :=
  (rows.filter (fun r => rowFailedKey r == k)).length

def failedGroups (rows : List DbRow) : List (FailedKey × Nat) :=
  (distinctKeys rows).map (fun k => (k, countKey rows k))

/-- Groups ordered by count descending. -/
def countDesc (a b : FailedKey × Nat) : Prop := b.2 ≤ a.2

instance : DecidableRel countDesc := fun a b => Nat.decLe b.2 a.2

instance : IsTotal (FailedKey × Nat) countDesc :=
  ⟨fun a b => (Nat.le_total b.2 a.2).elim Or.inl Or.inr⟩

instance : IsTrans (FailedKey × Nat) countDesc :=
  ⟨fun _ _ _ hab hbc => Nat.le_trans hbc hab⟩

/-- The rows the SQL query returns: groups by count descending, capped at
400. -/
def failedSortedGroups (table : List DbRow) (dateFrom : Int)
    (httpMethod : Option Str) : List (FailedKey × Nat) :=
  (List.insertionSort countDesc
    (failedGroups (failedFiltered table dateFrom httpMethod))).take 400

structure FailedEndpoint where
  action : Str
  endpointPath : Str
  statusCode : Int
  count : Nat
  percentage : Rat
deriving Repr, DecidableEq

/-- Embedding of `getFailedEndpoints`: scan the returned groups, total their
counts, then fill each percentage from that total (zero totals leave the
percentage 0). -/
def getFailedEndpoints (table : List DbRow) (dateFrom : Int)
    (httpMethod : Option Str) : List FailedEndpoint :=
  let sorted := failedSortedGroups table dateFrom httpMethod
  let total : Nat := (sorted.map (fun g => g.2)).sum
  sorted.map (fun g =>
    { action := g.1.action
      endpointPath := g.1.endpointPath
      statusCode := g.1.statusCode
      count := g.2
      percentage := if 0 < total then ((g.2 : Rat) * 100) / ((total : Nat) : Rat) else 0 })

/-- C6 counterexample: two stored failures identical in action, endpoint and
status code but with different severities are merged into a single group of
count 2 — the grouping does not include severity, refuting the
group-by-severity part of the claim (grouping by severity would yield two
groups of count 1). -/
theorem C6_counterexample_severity_not_in_grouping :
    (getFailedEndpoints
        [{ log := { action := some "a".toList, endpointPath := "/e".toList,
                    statusCode := 500, severity := "LOW".toList }, createdAt := 1 },
         { log := { action := some "a".toList, endpointPath := "/e".toList,
                    statusCode := 500, severity := "HIGH".toList }, createdAt := 2 }]
        0 none).map (fun g => (g.action, g.endpointPath, g.statusCode, g.count)) =
      [("a".toList, "/e".toList, 500, 2)] := by
  decide

/-- C6 (amended): the audit-failed-endpoints report considers only events
with status code ≥ 400 inside the selected window (and matching the optional
method filter), groups them by coalesced action, endpoint path and status
code — severity takes no part in the grouping — and returns per group its
count and its percentage of the returned groups' total, ordered by count
descending and capped at 400 groups (when there are at most 400 distinct
keys, every group is returned). -/
theorem C6_failedEndpoints_spec (table : List DbRow) (dateFrom : Int)
    (httpMethod : Option Str) :
    (getFailedEndpoints table dateFrom httpMethod).length ≤ 400 ∧
    List.Sorted (fun a b => b.count ≤ a.count)
      (getFailedEndpoints table dateFrom httpMethod) ∧
    (∀ g ∈ getFailedEndpoints table dateFrom httpMethod,
      g.count = countKey (failedFiltered table dateFrom httpMethod)
        ⟨g.action, g.endpointPath, g.statusCode⟩ ∧
      (⟨g.action, g.endpointPath, g.statusCode⟩ : FailedKey) ∈
        distinctKeys (failedFiltered table dateFrom httpMethod) ∧
      g.percentage =
        (if 0 < ((getFailedEndpoints table dateFrom httpMethod).map
            (fun x => x.count)).sum
         then ((g.count : Rat) * 100) /
           ((((getFailedEndpoints table dateFrom httpMethod).map
              (fun x => x.count)).sum : Nat) : Rat)
         else 0)) ∧
    ((distinctKeys (failedFiltered table dateFrom httpMethod)).length ≤ 400 →
      ((getFailedEndpoints table dateFrom httpMethod).map
          (fun g => (⟨g.action, g.endpointPath, g.statusCode⟩ : FailedKey))).Perm
        (distinctKeys (failedFiltered table dateFrom httpMethod))) := by
  have hsum : ((getFailedEndpoints table dateFrom httpMethod).map
      (fun x => x.count)).sum =
      ((failedSortedGroups table dateFrom httpMethod).map (fun g => g.2)).sum := by
    simp only [getFailedEndpoints, List.map_map]
    rfl
  refine ⟨?_, ?_, ?_, ?_⟩
  · simp only [getFailedEndpoints, List.length_map, failedSortedGroups]
    rw [List.length_take]
    omega
  · simp only [getFailedEndpoints, List.Sorted, List.pairwise_map]
    exact (List.sorted_insertionSort countDesc _).sublist (List.take_sublist _ _)
  · intro g hg
    simp only [getFailedEndpoints, List.mem_map] at hg
    obtain ⟨p, hp, hpg⟩ := hg
    have hpmem : p ∈ failedGroups (failedFiltered table dateFrom httpMethod) := by
      have h1 : p ∈ List.insertionSort countDesc
          (failedGroups (failedFiltered table dateFrom httpMethod)) :=
        (List.take_sublist _ _).mem hp
      exact (List.mem_insertionSort countDesc).mp h1
    simp only [failedGroups, List.mem_map] at hpmem
    obtain ⟨k, hk, hkp⟩ := hpmem
    subst hpg
    subst hkp
    refine ⟨rfl, by simpa using hk, ?_⟩
    rw [hsum]
  · intro hlen
    have hlen2 : (List.insertionSort countDesc
        (failedGroups (failedFiltered table dateFrom httpMethod))).length ≤ 400 := by
      rw [List.length_insertionSort, failedGroups, List.length_map]
      exact hlen
    have htake : failedSortedGroups table dateFrom httpMethod =
        List.insertionSort countDesc
          (failedGroups (failedFiltered table dateFrom httpMethod)) := by
      simp only [failedSortedGroups]
      exact List.take_of_length_le hlen2
    have hmapkey : (getFailedEndpoints table dateFrom httpMethod).map
        (fun g => (⟨g.action, g.endpointPath, g.statusCode⟩ : FailedKey)) =
        (failedSortedGroups table dateFrom httpMethod).map (fun p => p.1) := by
      simp only [getFailedEndpoints, List.map_map]
      rfl
    rw [hmapkey, htake]
    have hperm : (List.insertionSort countDesc
        (failedGroups (failedFiltered table dateFrom httpMethod))).Perm
        (failedGroups (failedFiltered table dateFrom httpMethod)) :=
      List.perm_insertionSort countDesc _
    have := hperm.map (fun p : FailedKey × Nat => p.1)
    refine this.trans ?_
    simp only [failedGroups, List.map_map]
    have : ((fun p : FailedKey × Nat => p.1) ∘
        (fun k => (k, countKey (failedFiltered table dateFrom httpMethod) k))) =
        id := by
      funext k
      rfl
    rw [this, List.map_id]

/-- Witness for C6: on a three-row table (two rows sharing a key, one below
status 400 and thus excluded) the returned group keys are exactly the
distinct keys of the filtered rows. -/
theorem C6_failedEndpoints_spec_witness :
    ((getFailedEndpoints
        [{ log := { action := some "a".toList, endpointPath := "/e".toList,
                    statusCode := 500 }, createdAt := 1 },
         { log := { action := some "a".toList, endpointPath := "/e".toList,
                    statusCode := 500 }, createdAt := 2 },
         { log := { action := some "b".toList, endpointPath := "/ok".toList,
                    statusCode := 200 }, createdAt := 3 }]
        0 none).map
        (fun g => (⟨g.action, g.endpointPath, g.statusCode⟩ : FailedKey))).Perm
      (distinctKeys (failedFiltered
        [{ log := { action := some "a".toList, endpointPath := "/e".toList,
                    statusCode := 500 }, createdAt := 1 },
         { log := { action := some "a".toList, endpointPath := "/e".toList,
                    statusCode := 500 }, createdAt := 2 },
         { log := { action := some "b".toList, endpointPath := "/ok".toList,
                    statusCode := 200 }, createdAt := 3 }]
        0 none)) := by
  exact (C6_failedEndpoints_spec _ 0 none).2.2.2 (by decide)

end AuditSvc
